import Mathlib

/-!
Verification of the `string32` library: a pair of string types (`String32`, `Str32`)
indexed by `u32` instead of `usize`, storing UTF-8 bytes in a `Vec32<u8>`.

The embedding models:
- a native Rust `String` as a `List Char` (its UTF-8 bytes are `utf8Encode` of that list);
- `String32` as the list of bytes it stores (`Vec32<u8>`);
- `Str32` as the list of bytes of the slice it wraps;
- a panic as `Option.none` / `Except.error`.

Mutating operations of `String32` follow the `as_string` pattern of the source:
take the content out as a native `String` (`From<String32> for String`, which in
checked builds re-validates UTF-8, hence `utf8Decode`), apply the native-string
operation, and convert back with `TryFrom<String>::try_from(..).unwrap()`
(the `tryIntoString32` width check, `none` on overflow panic).
-/

namespace String32Spec

/-- `u32::MAX`, the upper bound of the 32-bit length domain. -/
def u32Max : Nat := 4294967295

/-- UTF-8 encoding of a single Unicode scalar value, as its list of bytes. -/
def utf8EncodeChar (c : Char) : List Nat :=
  let n := c.toNat
  if n < 0x80 then [n]
  else if n < 0x800 then [0xC0 + n / 64, 0x80 + n % 64]
  else if n < 0x10000 then [0xE0 + n / 4096, 0x80 + n / 64 % 64, 0x80 + n % 64]
  else [0xF0 + n / 262144, 0x80 + n / 4096 % 64, 0x80 + n / 64 % 64, 0x80 + n % 64]

/-- UTF-8 encoding of a sequence of characters (the byte content of a native string). -/
def utf8Encode : List Char → List Nat
  | [] => []
  | c :: cs => utf8EncodeChar c ++ utf8Encode cs

/-- The number of bytes the UTF-8 encoding of `c` occupies (1 to 4). -/
def charSize (c : Char) : Nat := (utf8EncodeChar c).length

/-- The UTF-8 byte length of a character sequence: `str::len` of the native string. -/
def utf8Len (cs : List Char) : Nat := (utf8Encode cs).length

/-- Decode one UTF-8 scalar value from the front of a byte list, returning the
character and the remaining bytes.  Rejects truncated sequences, stray
continuation bytes, overlong encodings and surrogate code points. -/
def utf8DecodeChar : List Nat → Option (Char × List Nat)
  | [] => none
  | b0 :: rest =>
    if b0 < 0x80 then
      some (Char.ofNat b0, rest)
    else if 0xC0 ≤ b0 ∧ b0 < 0xE0 then
      match rest with
      | b1 :: rest1 =>
        if 0x80 ≤ b1 ∧ b1 < 0xC0 then
          let n := (b0 - 0xC0) * 64 + (b1 - 0x80)
          if 0x80 ≤ n ∧ n.isValidChar then some (Char.ofNat n, rest1) else none
        else none
      | [] => none
    else if 0xE0 ≤ b0 ∧ b0 < 0xF0 then
      match rest with
      | b1 :: b2 :: rest2 =>
        if (0x80 ≤ b1 ∧ b1 < 0xC0) ∧ (0x80 ≤ b2 ∧ b2 < 0xC0) then
          let n := (b0 - 0xE0) * 4096 + (b1 - 0x80) * 64 + (b2 - 0x80)
          if 0x800 ≤ n ∧ n.isValidChar then some (Char.ofNat n, rest2) else none
        else none
      | _ => none
    else if 0xF0 ≤ b0 ∧ b0 < 0xF8 then
      match rest with
      | b1 :: b2 :: b3 :: rest3 =>
        if (0x80 ≤ b1 ∧ b1 < 0xC0) ∧ (0x80 ≤ b2 ∧ b2 < 0xC0) ∧ (0x80 ≤ b3 ∧ b3 < 0xC0) then
          let n := (b0 - 0xF0) * 262144 + (b1 - 0x80) * 4096 + (b2 - 0x80) * 64 + (b3 - 0x80)
          if 0x10000 ≤ n ∧ n.isValidChar then some (Char.ofNat n, rest3) else none
        else none
      | _ => none
    else none

/-- Fuel-indexed UTF-8 decoder over a whole byte list. -/
def utf8DecodeAux : Nat → List Nat → Option (List Char)
  | _, [] => some []
  | fuel + 1, b :: bs =>
    match utf8DecodeChar (b :: bs) with
    | some (c, rest) => (utf8DecodeAux fuel rest).map (fun cs => c :: cs)
    | none => none
  | 0, _ :: _ => none

/-- Decode a byte list as UTF-8 (`str::from_utf8` / `String::from_utf8`):
`some` of the character sequence iff the bytes are well-formed UTF-8. -/
def utf8Decode (bs : List Nat) : Option (List Char) := utf8DecodeAux bs.length bs

/-- Well-formed UTF-8: the byte list decodes successfully. -/
def validUtf8 (bs : List Nat) : Bool := (utf8Decode bs).isSome

theorem char_toNat_valid (c : Char) : Nat.isValidChar c.toNat := c.valid

theorem toNat_charOfNat {n : Nat} (h : n.isValidChar) : (Char.ofNat n).toNat = n := by
  unfold Char.ofNat
  rw [dif_pos h]
  rfl

theorem utf8Encode_cons (c : Char) (cs : List Char) :
    utf8Encode (c :: cs) = utf8EncodeChar c ++ utf8Encode cs := rfl

theorem charSize_pos (c : Char) : 1 ≤ charSize c := by
  simp only [charSize, utf8EncodeChar]
  split_ifs <;> simp

theorem utf8Len_nil : utf8Len [] = 0 := rfl

theorem utf8Len_cons (c : Char) (cs : List Char) :
    utf8Len (c :: cs) = charSize c + utf8Len cs := by
  simp [utf8Len, utf8Encode_cons, charSize]

theorem utf8DecodeChar_encode (c : Char) (rest : List Nat) :
    utf8DecodeChar (utf8EncodeChar c ++ rest) = some (c, rest) := by
  have hv : Nat.isValidChar c.toNat := char_toNat_valid c
  have hofn := Char.ofNat_toNat c
  have hlt : c.toNat < 0x110000 := by
    rcases hv with h | ⟨_, h⟩ <;> omega
  unfold utf8EncodeChar
  by_cases h1 : c.toNat < 0x80
  · rw [if_pos h1]
    show utf8DecodeChar (c.toNat :: rest) = some (c, rest)
    unfold utf8DecodeChar
    dsimp only
    rw [if_pos h1, hofn]
  · rw [if_neg h1]
    by_cases h2 : c.toNat < 0x800
    · rw [if_pos h2]
      show utf8DecodeChar ((0xC0 + c.toNat / 64) :: (0x80 + c.toNat % 64) :: rest)
            = some (c, rest)
      unfold utf8DecodeChar
      dsimp only
      rw [if_neg (by omega), if_pos (show 0xC0 ≤ 0xC0 + c.toNat / 64 ∧ 0xC0 + c.toNat / 64 < 0xE0 by omega)]
      rw [if_pos (show 0x80 ≤ 0x80 + c.toNat % 64 ∧ 0x80 + c.toNat % 64 < 0xC0 by omega)]
      rw [show (0xC0 + c.toNat / 64 - 0xC0) * 64 + (0x80 + c.toNat % 64 - 0x80) = c.toNat by omega]
      rw [if_pos ⟨by omega, hv⟩, hofn]
    · rw [if_neg h2]
      by_cases h3 : c.toNat < 0x10000
      · rw [if_pos h3]
        show utf8DecodeChar ((0xE0 + c.toNat / 4096) :: (0x80 + c.toNat / 64 % 64)
              :: (0x80 + c.toNat % 64) :: rest) = some (c, rest)
        unfold utf8DecodeChar
        dsimp only
        rw [if_neg (by omega), if_neg (by omega),
          if_pos (show 0xE0 ≤ 0xE0 + c.toNat / 4096 ∧ 0xE0 + c.toNat / 4096 < 0xF0 by omega)]
        rw [if_pos (show (0x80 ≤ 0x80 + c.toNat / 64 % 64 ∧ 0x80 + c.toNat / 64 % 64 < 0xC0)
              ∧ 0x80 ≤ 0x80 + c.toNat % 64 ∧ 0x80 + c.toNat % 64 < 0xC0 by omega)]
        rw [show (0xE0 + c.toNat / 4096 - 0xE0) * 4096 + (0x80 + c.toNat / 64 % 64 - 0x80) * 64
              + (0x80 + c.toNat % 64 - 0x80) = c.toNat by omega]
        rw [if_pos ⟨by omega, hv⟩, hofn]
      · rw [if_neg h3]
        show utf8DecodeChar ((0xF0 + c.toNat / 262144) :: (0x80 + c.toNat / 4096 % 64)
              :: (0x80 + c.toNat / 64 % 64) :: (0x80 + c.toNat % 64) :: rest) = some (c, rest)
        unfold utf8DecodeChar
        dsimp only
        rw [if_neg (by omega), if_neg (by omega), if_neg (by omega),
          if_pos (show 0xF0 ≤ 0xF0 + c.toNat / 262144 ∧ 0xF0 + c.toNat / 262144 < 0xF8 by omega)]
        rw [if_pos (show (0x80 ≤ 0x80 + c.toNat / 4096 % 64 ∧ 0x80 + c.toNat / 4096 % 64 < 0xC0)
              ∧ (0x80 ≤ 0x80 + c.toNat / 64 % 64 ∧ 0x80 + c.toNat / 64 % 64 < 0xC0)
              ∧ 0x80 ≤ 0x80 + c.toNat % 64 ∧ 0x80 + c.toNat % 64 < 0xC0 by omega)]
        rw [show (0xF0 + c.toNat / 262144 - 0xF0) * 262144 + (0x80 + c.toNat / 4096 % 64 - 0x80) * 4096
              + (0x80 + c.toNat / 64 % 64 - 0x80) * 64 + (0x80 + c.toNat % 64 - 0x80) = c.toNat by omega]
        rw [if_pos ⟨by omega, hv⟩, hofn]

theorem utf8EncodeChar_ne_nil (c : Char) : utf8EncodeChar c ≠ [] := by
  have h := charSize_pos c
  intro hnil
  rw [charSize, hnil] at h
  simp at h

theorem utf8DecodeAux_cons (fuel : Nat) (b : Nat) (bs : List Nat) :
    utf8DecodeAux (fuel + 1) (b :: bs) =
      match utf8DecodeChar (b :: bs) with
      | some (c, rest) => (utf8DecodeAux fuel rest).map (fun cs => c :: cs)
      | none => none := rfl

theorem utf8DecodeAux_encode (cs : List Char) : ∀ fuel : Nat, utf8Len cs ≤ fuel →
    utf8DecodeAux fuel (utf8Encode cs) = some cs := by
  induction cs with
  | nil => intro fuel _; cases fuel <;> rfl
  | cons c cs ih =>
    intro fuel h
    rw [utf8Len_cons] at h
    have hc := charSize_pos c
    obtain ⟨f, rfl⟩ : ∃ f, fuel = f + 1 := ⟨fuel - 1, by omega⟩
    obtain ⟨b, tl, hE⟩ : ∃ b tl, utf8EncodeChar c = b :: tl := by
      cases hE : utf8EncodeChar c with
      | nil => exact absurd hE (utf8EncodeChar_ne_nil c)
      | cons b tl => exact ⟨b, tl, rfl⟩
    have hd : utf8DecodeChar (b :: (tl ++ utf8Encode cs)) = some (c, utf8Encode cs) := by
      have hrt := utf8DecodeChar_encode c (utf8Encode cs)
      rwa [hE] at hrt
    rw [utf8Encode_cons, hE]
    show utf8DecodeAux (f + 1) (b :: (tl ++ utf8Encode cs)) = some (c :: cs)
    rw [utf8DecodeAux_cons, hd]
    dsimp only
    rw [ih f (by omega)]
    rfl

theorem utf8Decode_encode (cs : List Char) : utf8Decode (utf8Encode cs) = some cs :=
  utf8DecodeAux_encode cs (utf8Encode cs).length (Nat.le_refl _)

theorem utf8DecodeChar_sound : ∀ {bs : List Nat} {c : Char} {rest : List Nat},
    utf8DecodeChar bs = some (c, rest) → utf8EncodeChar c ++ rest = bs := by
  intro bs c rest h
  rcases bs with _ | ⟨b0, bs1⟩
  · exact Option.noConfusion h
  unfold utf8DecodeChar at h
  dsimp only at h
  by_cases h1 : b0 < 0x80
  · rw [if_pos h1] at h
    simp only [Option.some.injEq, Prod.mk.injEq] at h
    obtain ⟨hc, hr⟩ := h
    subst hc hr
    have ht : (Char.ofNat b0).toNat = b0 := toNat_charOfNat (Or.inl (by omega))
    unfold utf8EncodeChar
    rw [ht, if_pos h1]
    rfl
  · rw [if_neg h1] at h
    by_cases h2 : 0xC0 ≤ b0 ∧ b0 < 0xE0
    · rw [if_pos h2] at h
      rcases bs1 with _ | ⟨b1, bs2⟩
      · exact Option.noConfusion h
      dsimp only at h
      by_cases hc1 : 0x80 ≤ b1 ∧ b1 < 0xC0
      · rw [if_pos hc1] at h
        by_cases hg : 0x80 ≤ (b0 - 0xC0) * 64 + (b1 - 0x80)
            ∧ Nat.isValidChar ((b0 - 0xC0) * 64 + (b1 - 0x80))
        · rw [if_pos hg] at h
          simp only [Option.some.injEq, Prod.mk.injEq] at h
          obtain ⟨hc, hr⟩ := h
          subst hc hr
          have ht := toNat_charOfNat hg.2
          unfold utf8EncodeChar
          rw [ht, if_neg (by omega), if_pos (by omega)]
          have e0 : 0xC0 + ((b0 - 0xC0) * 64 + (b1 - 0x80)) / 64 = b0 := by omega
          have e1 : 0x80 + ((b0 - 0xC0) * 64 + (b1 - 0x80)) % 64 = b1 := by omega
          rw [e0, e1]
          rfl
        · rw [if_neg hg] at h; exact Option.noConfusion h
      · rw [if_neg hc1] at h; exact Option.noConfusion h
    · rw [if_neg h2] at h
      by_cases h3 : 0xE0 ≤ b0 ∧ b0 < 0xF0
      · rw [if_pos h3] at h
        rcases bs1 with _ | ⟨b1, _ | ⟨b2, bs3⟩⟩
        · exact Option.noConfusion h
        · exact Option.noConfusion h
        dsimp only at h
        by_cases hc1 : (0x80 ≤ b1 ∧ b1 < 0xC0) ∧ (0x80 ≤ b2 ∧ b2 < 0xC0)
        · rw [if_pos hc1] at h
          by_cases hg : 0x800 ≤ (b0 - 0xE0) * 4096 + (b1 - 0x80) * 64 + (b2 - 0x80)
              ∧ Nat.isValidChar ((b0 - 0xE0) * 4096 + (b1 - 0x80) * 64 + (b2 - 0x80))
          · rw [if_pos hg] at h
            simp only [Option.some.injEq, Prod.mk.injEq] at h
            obtain ⟨hc, hr⟩ := h
            subst hc hr
            have ht := toNat_charOfNat hg.2
            unfold utf8EncodeChar
            rw [ht, if_neg (by omega), if_neg (by omega), if_pos (by omega)]
            have e0 : 0xE0 + ((b0 - 0xE0) * 4096 + (b1 - 0x80) * 64 + (b2 - 0x80)) / 4096 = b0 := by
              omega
            have e1 : 0x80 + ((b0 - 0xE0) * 4096 + (b1 - 0x80) * 64 + (b2 - 0x80)) / 64 % 64 = b1 := by
              omega
            have e2 : 0x80 + ((b0 - 0xE0) * 4096 + (b1 - 0x80) * 64 + (b2 - 0x80)) % 64 = b2 := by
              omega
            rw [e0, e1, e2]
            rfl
          · rw [if_neg hg] at h; exact Option.noConfusion h
        · rw [if_neg hc1] at h; exact Option.noConfusion h
      · rw [if_neg h3] at h
        by_cases h4 : 0xF0 ≤ b0 ∧ b0 < 0xF8
        · rw [if_pos h4] at h
          rcases bs1 with _ | ⟨b1, _ | ⟨b2, _ | ⟨b3, bs4⟩⟩⟩
          · exact Option.noConfusion h
          · exact Option.noConfusion h
          · exact Option.noConfusion h
          dsimp only at h
          by_cases hc1 : (0x80 ≤ b1 ∧ b1 < 0xC0) ∧ (0x80 ≤ b2 ∧ b2 < 0xC0)
              ∧ (0x80 ≤ b3 ∧ b3 < 0xC0)
          · rw [if_pos hc1] at h
            by_cases hg : 0x10000 ≤ (b0 - 0xF0) * 262144 + (b1 - 0x80) * 4096
                  + (b2 - 0x80) * 64 + (b3 - 0x80)
                ∧ Nat.isValidChar ((b0 - 0xF0) * 262144 + (b1 - 0x80) * 4096
                  + (b2 - 0x80) * 64 + (b3 - 0x80))
            · rw [if_pos hg] at h
              simp only [Option.some.injEq, Prod.mk.injEq] at h
              obtain ⟨hc, hr⟩ := h
              subst hc hr
              have ht := toNat_charOfNat hg.2
              unfold utf8EncodeChar
              rw [ht, if_neg (by omega), if_neg (by omega), if_neg (by omega)]
              have e0 : 0xF0 + ((b0 - 0xF0) * 262144 + (b1 - 0x80) * 4096
                  + (b2 - 0x80) * 64 + (b3 - 0x80)) / 262144 = b0 := by omega
              have e1 : 0x80 + ((b0 - 0xF0) * 262144 + (b1 - 0x80) * 4096
                  + (b2 - 0x80) * 64 + (b3 - 0x80)) / 4096 % 64 = b1 := by omega
              have e2 : 0x80 + ((b0 - 0xF0) * 262144 + (b1 - 0x80) * 4096
                  + (b2 - 0x80) * 64 + (b3 - 0x80)) / 64 % 64 = b2 := by omega
              have e3 : 0x80 + ((b0 - 0xF0) * 262144 + (b1 - 0x80) * 4096
                  + (b2 - 0x80) * 64 + (b3 - 0x80)) % 64 = b3 := by omega
              rw [e0, e1, e2, e3]
              rfl
            · rw [if_neg hg] at h; exact Option.noConfusion h
          · rw [if_neg hc1] at h; exact Option.noConfusion h
        · rw [if_neg h4] at h; exact Option.noConfusion h

theorem utf8DecodeAux_sound : ∀ (fuel : Nat) (bs : List Nat) (cs : List Char),
    utf8DecodeAux fuel bs = some cs → utf8Encode cs = bs := by
  intro fuel
  induction fuel with
  | zero =>
    intro bs cs h
    rcases bs with _ | ⟨b, bs1⟩
    · simp only [utf8DecodeAux, Option.some.injEq] at h
      subst h
      rfl
    · exact Option.noConfusion h
  | succ f ih =>
    intro bs cs h
    rcases bs with _ | ⟨b, bs1⟩
    · simp only [utf8DecodeAux, Option.some.injEq] at h
      subst h
      rfl
    · rw [utf8DecodeAux_cons] at h
      cases hd : utf8DecodeChar (b :: bs1) with
      | none => rw [hd] at h; exact Option.noConfusion h
      | some p =>
        rcases p with ⟨c, rest⟩
        rw [hd] at h
        dsimp only at h
        cases hrec : utf8DecodeAux f rest with
        | none => rw [hrec] at h; exact Option.noConfusion h
        | some cs1 =>
          rw [hrec] at h
          simp only [Option.map_some', Option.some.injEq] at h
          subst h
          have hb := utf8DecodeChar_sound hd
          have h2 := ih rest cs1 hrec
          rw [utf8Encode_cons, h2, hb]

theorem utf8Decode_sound {bs : List Nat} {cs : List Char}
    (h : utf8Decode bs = some cs) : utf8Encode cs = bs :=
  utf8DecodeAux_sound bs.length bs cs h

/-- The owned type: `pub struct String32(Vec32<u8>);` — the bytes it stores. -/
structure String32 where
  vec : List Nat
deriving DecidableEq

/-- The borrowed view: `pub struct Str32(str);` — the bytes of the wrapped slice. -/
structure Str32 where
  slice : List Nat
deriving DecidableEq

/-- `TryFromStringError<T>`: overflow error retaining the rejected owned string. -/
structure TryFromStringError where
  original : List Char
deriving DecidableEq

/-- `TryFromStrError`: stateless overflow error for borrowed sources
(`pub struct TryFromStrError(());`). -/
structure TryFromStrError : Type
deriving DecidableEq

/-- `Deref for String32`: reinterpret the owned bytes as a `&Str32` view. -/
def String32.deref (s : String32) : Str32 := ⟨s.vec⟩

/-- `TryFrom<String> for String32`: succeeds iff the byte length fits in `u32`,
keeping the same bytes; on overflow the error returns the original string. -/
def String32.tryFromString (s : List Char) : Except TryFromStringError String32 :=
  if utf8Len s ≤ u32Max then .ok ⟨utf8Encode s⟩ else .error ⟨s⟩

/-- `TryFrom<&str> for String32`: same width check, but the error is stateless. -/
def String32.tryFromStr (s : List Char) : Except TryFromStrError String32 :=
  if utf8Len s ≤ u32Max then .ok ⟨utf8Encode s⟩ else .error ⟨⟩

/-- `From<String32> for String`: in checked builds `String::from_utf8(..).unwrap()` —
decode the stored bytes, `none` modelling the debug-assert panic on invalid UTF-8. -/
def String32.intoString (s : String32) : Option (List Char) := utf8Decode s.vec

/-- `String::try_into().unwrap()` on the way back from a native-string mutation:
`none` models the panic when the resulting length overflows the 32-bit domain. -/
def tryIntoString32 (s : List Char) : Option String32 :=
  if utf8Len s ≤ u32Max then some ⟨utf8Encode s⟩ else none

/-- Split a native string at a byte offset: `some` of the two halves when the
offset is on a character boundary and in range, `none` (panic) otherwise.
This is the boundary/range check shared by `String::insert`, `String::remove`,
`String::truncate`, `String::split_off` and `str::split_at`. -/
def splitAtByteIdx : List Char → Nat → Option (List Char × List Char)
  | cs, 0 => some ([], cs)
  | [], _ + 1 => none
  | c :: cs, i + 1 =>
    if charSize c ≤ i + 1 then
      (splitAtByteIdx cs (i + 1 - charSize c)).map (fun p => (c :: p.1, p.2))
    else none

/-- `str::is_char_boundary`, exactly as implemented on the raw bytes: index 0 is a
boundary, the total length is a boundary, and an interior index is a boundary
iff the byte there is not a continuation byte (`0x80..0xC0`). -/
def isUtf8Boundary (bs : List Nat) (i : Nat) : Bool :=
  decide (i = 0) ||
    match bs.drop i with
    | [] => decide (i = bs.length)
    | b :: _ => decide (b < 0x80 ∨ 0xC0 ≤ b)

/-- `Str32::is_char_boundary`, delegating to `str::is_char_boundary`. -/
def Str32.isCharBoundary (s : Str32) (index : Nat) : Bool := isUtf8Boundary s.slice index

/-- `Str32::len`: the byte length of the slice, `try_into().unwrap()`-narrowed to
`u32` (`none` models the debug-assert panic when it cannot fit). -/
def Str32.len (s : Str32) : Option Nat :=
  if s.slice.length ≤ u32Max then some s.slice.length else none

/-- `String::push` on the content: append one character. -/
def stringPush (s : List Char) (ch : Char) : List Char := s ++ [ch]

/-- `String::push_str` on the content: append a string slice. -/
def stringPushStr (s : List Char) (t : List Char) : List Char := s ++ t

/-- `String::pop` on the content: the shortened string and the removed character. -/
def stringPop (s : List Char) : List Char × Option Char := (s.dropLast, s.getLast?)

/-- `String::insert` on the content: panics (`none`) unless `idx` is an in-range
character boundary. -/
def stringInsert (s : List Char) (idx : Nat) (ch : Char) : Option (List Char) :=
  (splitAtByteIdx s idx).map (fun p => p.1 ++ ch :: p.2)

/-- `String::insert_str` on the content. -/
def stringInsertStr (s : List Char) (idx : Nat) (t : List Char) : Option (List Char) :=
  (splitAtByteIdx s idx).map (fun p => p.1 ++ t ++ p.2)

/-- `String::remove` on the content: the character at byte offset `idx` and the
remaining string; panics (`none`) if `idx` is past the last character or not a
boundary. -/
def stringRemove (s : List Char) (idx : Nat) : Option (Char × List Char) :=
  match splitAtByteIdx s idx with
  | some (p1, c :: p2) => some (c, p1 ++ p2)
  | _ => none

/-- `String::truncate` on the content: no effect when `newLen ≥ len`, otherwise
keeps the prefix of byte length `newLen`, panicking (`none`) off a boundary. -/
def stringTruncate (s : List Char) (newLen : Nat) : Option (List Char) :=
  if utf8Len s ≤ newLen then some s
  else (splitAtByteIdx s newLen).map Prod.fst

/-- `String::split_off` on the content: both halves at an in-range boundary. -/
def stringSplitOff (s : List Char) (at_ : Nat) : Option (List Char × List Char) :=
  splitAtByteIdx s at_

/-- `String32::push` via `as_string`: out to a native `String`, native push,
width-checked conversion back. -/
def String32.push (s : String32) (ch : Char) : Option String32 := do
  let cs ← utf8Decode s.vec
  tryIntoString32 (stringPush cs ch)

/-- `String32::push_str` via `as_string`. -/
def String32.pushStr (s : String32) (t : List Char) : Option String32 := do
  let cs ← utf8Decode s.vec
  tryIntoString32 (stringPushStr cs t)

/-- `String32::pop` via `as_string`: the mutated string and the popped character. -/
def String32.pop (s : String32) : Option (String32 × Option Char) := do
  let cs ← utf8Decode s.vec
  let s2 ← tryIntoString32 (stringPop cs).1
  pure (s2, (stringPop cs).2)

/-- `String32::insert` via `as_string`. -/
def String32.insert (s : String32) (idx : Nat) (ch : Char) : Option String32 := do
  let cs ← utf8Decode s.vec
  let cs2 ← stringInsert cs idx ch
  tryIntoString32 cs2

/-- `String32::insert_str` via `as_string`. -/
def String32.insertStr (s : String32) (idx : Nat) (t : List Char) : Option String32 := do
  let cs ← utf8Decode s.vec
  let cs2 ← stringInsertStr cs idx t
  tryIntoString32 cs2

/-- `String32::remove` via `as_string`: the removed character and the mutated string. -/
def String32.remove (s : String32) (idx : Nat) : Option (Char × String32) := do
  let cs ← utf8Decode s.vec
  let (c, cs2) ← stringRemove cs idx
  let s2 ← tryIntoString32 cs2
  pure (c, s2)

/-- `String32::truncate` via `as_string`. -/
def String32.truncate (s : String32) (newLen : Nat) : Option String32 := do
  let cs ← utf8Decode s.vec
  let cs2 ← stringTruncate cs newLen
  tryIntoString32 cs2

/-- `String32::split_off` via `as_string`: both halves converted back with the
width check (`s.split_off(at).try_into().unwrap()` and `*self = s.try_into().unwrap()`). -/
def String32.splitOff (s : String32) (at_ : Nat) : Option (String32 × String32) := do
  let cs ← utf8Decode s.vec
  let (a, b) ← stringSplitOff cs at_
  let s1 ← tryIntoString32 a
  let s2 ← tryIntoString32 b
  pure (s1, s2)

/-- ASCII lowercasing of one character (`u8::to_ascii_lowercase` semantics). -/
def asciiLowerChar (c : Char) : Char :=
  if 'A' ≤ c ∧ c ≤ 'Z' then Char.ofNat (c.toNat + 32) else c

/-- ASCII uppercasing of one character. -/
def asciiUpperChar (c : Char) : Char :=
  if 'a' ≤ c ∧ c ≤ 'z' then Char.ofNat (c.toNat - 32) else c

/-- `Str32::make_ascii_lowercase` reached through `DerefMut`: reinterpret the bytes
as a `&mut str` (debug-checked) and fold each character in place. -/
def String32.makeAsciiLowercase (s : String32) : Option String32 := do
  let cs ← utf8Decode s.vec
  pure ⟨utf8Encode (cs.map asciiLowerChar)⟩

/-- `Str32::make_ascii_uppercase` reached through `DerefMut`. -/
def String32.makeAsciiUppercase (s : String32) : Option String32 := do
  let cs ← utf8Decode s.vec
  pure ⟨utf8Encode (cs.map asciiUpperChar)⟩

/-- `str::split_at` lifted to `Str32`: decode the slice, split at the byte offset
(boundary- and range-checked), and view both halves. -/
def Str32.splitAt (s : Str32) (mid : Nat) : Option (Str32 × Str32) := do
  let cs ← utf8Decode s.slice
  let (a, b) ← splitAtByteIdx cs mid
  pure (⟨utf8Encode a⟩, ⟨utf8Encode b⟩)

/-- The native `str::char_indices` sequence of a string starting at byte cursor
`ofs`: each character paired with the cursor position where it starts. -/
def charIndicesFrom (ofs : Nat) : List Char → List (Nat × Char)
  | [] => []
  | c :: cs => (ofs, c) :: charIndicesFrom (ofs + charSize c) cs

/-- `Str32::char_indices`: the native sequence with each offset narrowed to `u32`
by `i.try_into().unwrap()` (`none` models that panic). -/
def Str32.charIndices (s : Str32) : Option (List (Nat × Char)) := do
  let cs ← utf8Decode s.slice
  (charIndicesFrom 0 cs).mapM (fun p => if p.1 ≤ u32Max then some p else none)

/-- The byte stream that `Hash for str` feeds to any hasher: the UTF-8 bytes
followed by the `0xFF` terminator (`state.write(self.as_bytes()); state.write_u8(0xff)`).
Two values hash identically for every hasher iff they feed it the same stream. -/
def strHashStream (bs : List Nat) : List Nat := bs ++ [0xFF]

/-- `Hash for Str32`: `self.0.hash(hasher)` — delegate to the underlying `str`. -/
def Str32.hashStream (s : Str32) : List Nat := strHashStream s.slice

/-- `Hash for String32`: `(**self).hash(state)` — delegate to the derefed `Str32`. -/
def String32.hashStream (s : String32) : List Nat := Str32.hashStream s.deref

/-- One mutating operation of the owned type (the operations named by the invariant
clause of the spec). -/
inductive Op where
  | push (ch : Char)
  | pushStr (t : List Char)
  | pop
  | insert (idx : Nat) (ch : Char)
  | insertStr (idx : Nat) (t : List Char)
  | remove (idx : Nat)
  | truncate (newLen : Nat)
  | splitOff (at_ : Nat)
  | makeAsciiLowercase
  | makeAsciiUppercase

/-- Apply one mutation to a `String32`: `none` is a panic, `some outs` lists every
`String32` value the operation hands back (the mutated receiver, plus the second
half for `split_off`). -/
def Op.apply : Op → String32 → Option (List String32)
  | .push ch, s => (s.push ch).map (fun t => [t])
  | .pushStr t, s => (s.pushStr t).map (fun u => [u])
  | .pop, s => s.pop.map (fun p => [p.1])
  | .insert idx ch, s => (s.insert idx ch).map (fun t => [t])
  | .insertStr idx t, s => (s.insertStr idx t).map (fun u => [u])
  | .remove idx, s => (s.remove idx).map (fun p => [p.2])
  | .truncate newLen, s => (s.truncate newLen).map (fun t => [t])
  | .splitOff at_, s => (s.splitOff at_).map (fun p => [p.1, p.2])
  | .makeAsciiLowercase, s => s.makeAsciiLowercase.map (fun t => [t])
  | .makeAsciiUppercase, s => s.makeAsciiUppercase.map (fun t => [t])

theorem utf8EncodeChar_head (c : Char) :
    ∃ b tl, utf8EncodeChar c = b :: tl ∧ (b < 0x80 ∨ 0xC0 ≤ b) := by
  simp only [utf8EncodeChar]
  split_ifs with h1 h2 h3
  · exact ⟨_, _, rfl, Or.inl h1⟩
  · exact ⟨_, _, rfl, Or.inr (by omega)⟩
  · exact ⟨_, _, rfl, Or.inr (by omega)⟩
  · exact ⟨_, _, rfl, Or.inr (by omega)⟩

theorem utf8EncodeChar_tail_cont (c : Char) :
    ∀ b ∈ (utf8EncodeChar c).drop 1, 0x80 ≤ b ∧ b < 0xC0 := by
  intro b hb
  simp only [utf8EncodeChar] at hb
  split_ifs at hb <;> simp at hb <;> omega

theorem splitAtByteIdx_none_of_gt : ∀ (cs : List Char) (i : Nat), utf8Len cs < i →
    splitAtByteIdx cs i = none := by
  intro cs
  induction cs with
  | nil =>
    intro i h
    rw [utf8Len_nil] at h
    obtain ⟨j, rfl⟩ : ∃ j, i = j + 1 := ⟨i - 1, by omega⟩
    rfl
  | cons c cs ih =>
    intro i h
    rw [utf8Len_cons] at h
    have hc := charSize_pos c
    obtain ⟨j, rfl⟩ : ∃ j, i = j + 1 := ⟨i - 1, by omega⟩
    simp only [splitAtByteIdx]
    rw [if_pos (show charSize c ≤ j + 1 by omega), ih _ (by omega)]
    rfl

theorem splitAtByteIdx_spec : ∀ (cs : List Char) (i : Nat) (a b : List Char),
    splitAtByteIdx cs i = some (a, b) → a ++ b = cs ∧ utf8Len a = i := by
  intro cs
  induction cs with
  | nil =>
    intro i a b h
    cases i with
    | zero =>
      simp only [splitAtByteIdx, Option.some.injEq, Prod.mk.injEq] at h
      obtain ⟨rfl, rfl⟩ := h
      exact ⟨rfl, rfl⟩
    | succ j => exact Option.noConfusion h
  | cons c cs ih =>
    intro i a b h
    cases i with
    | zero =>
      simp only [splitAtByteIdx, Option.some.injEq, Prod.mk.injEq] at h
      obtain ⟨rfl, rfl⟩ := h
      exact ⟨rfl, rfl⟩
    | succ j =>
      simp only [splitAtByteIdx] at h
      by_cases hc : charSize c ≤ j + 1
      · rw [if_pos hc] at h
        cases hs : splitAtByteIdx cs (j + 1 - charSize c) with
        | none => rw [hs] at h; exact Option.noConfusion h
        | some p =>
          rcases p with ⟨a1, b1⟩
          rw [hs] at h
          simp only [Option.map_some', Option.some.injEq, Prod.mk.injEq] at h
          obtain ⟨rfl, rfl⟩ := h
          obtain ⟨h1, h2⟩ := ih _ _ _ hs
          refine ⟨?_, ?_⟩
          · rw [List.cons_append, h1]
          · rw [utf8Len_cons, h2]; omega
      · rw [if_neg hc] at h; exact Option.noConfusion h

theorem isUtf8Boundary_encode : ∀ (cs : List Char) (i : Nat),
    isUtf8Boundary (utf8Encode cs) i = (splitAtByteIdx cs i).isSome := by
  intro cs
  induction cs with
  | nil =>
    intro i
    cases i with
    | zero => rfl
    | succ j => simp [isUtf8Boundary, splitAtByteIdx, utf8Encode]
  | cons c cs ih =>
    intro i
    cases i with
    | zero => rfl
    | succ j =>
      have hc := charSize_pos c
      by_cases hj : j + 1 < charSize c
      · have hs : splitAtByteIdx (c :: cs) (j + 1) = none := by
          simp only [splitAtByteIdx]
          rw [if_neg (by omega)]
        rw [hs]
        obtain ⟨b, tl, hd⟩ : ∃ b tl, (utf8EncodeChar c).drop (j + 1) = b :: tl := by
          cases hh : (utf8EncodeChar c).drop (j + 1) with
          | nil =>
            rw [List.drop_eq_nil_iff] at hh
            exact absurd hh (by rw [← charSize]; omega)
          | cons b tl => exact ⟨b, tl, rfl⟩
        have hbmem : b ∈ (utf8EncodeChar c).drop 1 := by
          have hdd : ((utf8EncodeChar c).drop 1).drop j = (utf8EncodeChar c).drop (j + 1) := by
            rw [List.drop_drop, Nat.add_comm]
          apply List.mem_of_mem_drop (n := j)
          rw [hdd, hd]
          exact List.mem_cons_self b tl
        obtain ⟨hb1, hb2⟩ := utf8EncodeChar_tail_cont c b hbmem
        have hde : (utf8EncodeChar c ++ utf8Encode cs).drop (j + 1)
            = b :: (tl ++ utf8Encode cs) := by
          rw [List.drop_append_of_le_length (by rw [← charSize]; omega), hd]
          rfl
        rw [utf8Encode_cons]
        unfold isUtf8Boundary
        rw [hde]
        simp only [Option.isSome_none, Bool.or_eq_false_iff, decide_eq_false_iff_not]
        exact ⟨by omega, by omega⟩
      · have hs : splitAtByteIdx (c :: cs) (j + 1) =
            (splitAtByteIdx cs (j + 1 - charSize c)).map (fun p => (c :: p.1, p.2)) := by
          simp only [splitAtByteIdx]
          rw [if_pos (by omega)]
        rw [hs, Option.isSome_map', ← ih (j + 1 - charSize c), utf8Encode_cons]
        have hde : (utf8EncodeChar c ++ utf8Encode cs).drop (j + 1)
            = (utf8Encode cs).drop (j + 1 - charSize c) := by
          rw [List.drop_append_eq_append_drop,
            List.drop_eq_nil_of_le (by rw [← charSize]; omega), List.nil_append, charSize]
        have hlen : (utf8EncodeChar c ++ utf8Encode cs).length = charSize c + utf8Len cs := by
          rw [List.length_append]
          rfl
        unfold isUtf8Boundary
        rw [hde, hlen, decide_eq_false (show ¬(j + 1 = 0) by omega), Bool.false_or]
        cases hr : (utf8Encode cs).drop (j + 1 - charSize c) with
        | nil =>
          rw [List.drop_eq_nil_iff] at hr
          have hr2 : utf8Len cs ≤ j + 1 - charSize c := hr
          by_cases hm0 : j + 1 - charSize c = 0
          · have h1 : j + 1 = charSize c + utf8Len cs := by omega
            rw [decide_eq_true h1, decide_eq_true hm0, Bool.true_or]
          · rw [decide_eq_false hm0, Bool.false_or,
              show (utf8Encode cs).length = utf8Len cs from rfl,
              decide_eq_decide.mpr
                (show (j + 1 = charSize c + utf8Len cs) ↔ (j + 1 - charSize c = utf8Len cs) by
                  omega)]
        | cons b tl2 =>
          by_cases hm0 : j + 1 - charSize c = 0
          · rw [hm0, List.drop_zero] at hr
            cases cs with
            | nil => exact absurd hr (by simp [utf8Encode])
            | cons c2 cs2 =>
              obtain ⟨b2, tl3, hE2, hlead⟩ := utf8EncodeChar_head c2
              rw [utf8Encode_cons, hE2, List.cons_append] at hr
              obtain ⟨rfl, _⟩ : b2 = b ∧ tl3 ++ utf8Encode cs2 = tl2 := by
                injection hr with h1 h2
                exact ⟨h1, h2⟩
              rw [decide_eq_true hm0, Bool.true_or]
              dsimp only
              rw [decide_eq_true hlead]
          · rw [decide_eq_false hm0, Bool.false_or]

theorem validUtf8_encode (cs : List Char) : validUtf8 (utf8Encode cs) = true := by
  rw [validUtf8, utf8Decode_encode]
  rfl

theorem tryIntoString32_some {cs : List Char} {t : String32}
    (h : tryIntoString32 cs = some t) : t = ⟨utf8Encode cs⟩ := by
  unfold tryIntoString32 at h
  by_cases hle : utf8Len cs ≤ u32Max
  · rw [if_pos hle] at h
    exact (Option.some.inj h).symm
  · rw [if_neg hle] at h
    exact Option.noConfusion h

/-- C1: a native string whose byte length is at most `u32::MAX` converts into a
`String32` via `TryFrom<String>`, and `From<String32>` turns the result back into
an equal string (same bytes). -/
theorem c1_tryFromString_roundtrip (s : List Char) (h : utf8Len s ≤ u32Max) :
    String32.tryFromString s = .ok ⟨utf8Encode s⟩ ∧
    String32.intoString ⟨utf8Encode s⟩ = some s := by
  constructor
  · unfold String32.tryFromString
    rw [if_pos h]
  · exact utf8Decode_encode s

/-- C1 witness: the round trip evaluated on a concrete two-byte string. -/
theorem c1_witness : utf8Len ['h', 'i'] ≤ u32Max ∧
    (String32.tryFromString ['h', 'i'] = .ok ⟨utf8Encode ['h', 'i']⟩ ∧
     String32.intoString ⟨utf8Encode ['h', 'i']⟩ = some ['h', 'i']) :=
  ⟨by decide, c1_tryFromString_roundtrip ['h', 'i'] (by decide)⟩

/-- C2: a native string whose byte length exceeds `u32::MAX` is rejected:
`TryFrom<String>` returns the overflow error carrying the original string
unchanged, and `TryFrom<&str>` returns the stateless `TryFromStrError`. -/
theorem c2_tryFrom_overflow (s : List Char) (h : u32Max < utf8Len s) :
    String32.tryFromString s = .error ⟨s⟩ ∧ String32.tryFromStr s = .error ⟨⟩ := by
  constructor
  · unfold String32.tryFromString
    rw [if_neg (by omega)]
  · unfold String32.tryFromStr
    rw [if_neg (by omega)]

theorem utf8Len_replicate (n : Nat) (c : Char) :
    utf8Len (List.replicate n c) = n * charSize c := by
  induction n with
  | zero => simp [utf8Len_nil]
  | succ m ih =>
    rw [List.replicate_succ, utf8Len_cons, ih]
    ring

/-- C2 witness: a string of 2^32 ASCII characters overflows and both conversions
report it, the owned one handing the string back. -/
theorem c2_witness : u32Max < utf8Len (List.replicate 4294967296 'a') ∧
    (String32.tryFromString (List.replicate 4294967296 'a')
        = .error ⟨List.replicate 4294967296 'a'⟩ ∧
     String32.tryFromStr (List.replicate 4294967296 'a') = .error ⟨⟩) := by
  have h : u32Max < utf8Len (List.replicate 4294967296 'a') := by
    rw [utf8Len_replicate, show charSize 'a' = 1 by decide]
    decide
  exact ⟨h, c2_tryFrom_overflow _ h⟩

/-- C3: every mutation of the owned type that completes hands back only values
whose stored bytes are well-formed UTF-8 (so `as_str`, which decodes them, never
exposes invalid UTF-8). -/
theorem c3_mutations_preserve_utf8 (op : Op) (s : String32) (outs : List String32)
    (_hv : validUtf8 s.vec = true) (h : op.apply s = some outs) :
    ∀ t ∈ outs, validUtf8 t.vec = true := by
  cases op with
  | push ch =>
    simp only [Op.apply, String32.push, bind, Option.bind] at h
    cases hd : utf8Decode s.vec with
    | none => rw [hd] at h; simp at h
    | some cs =>
      rw [hd] at h
      dsimp only at h
      cases ht : tryIntoString32 (stringPush cs ch) with
      | none => rw [ht] at h; simp at h
      | some t =>
        rw [ht] at h
        simp only [Option.map_some', Option.some.injEq] at h
        subst h
        intro t2 ht2
        simp only [List.mem_singleton] at ht2
        subst ht2
        rw [tryIntoString32_some ht]
        exact validUtf8_encode _
  | pushStr t =>
    simp only [Op.apply, String32.pushStr, bind, Option.bind] at h
    cases hd : utf8Decode s.vec with
    | none => rw [hd] at h; simp at h
    | some cs =>
      rw [hd] at h
      dsimp only at h
      cases ht : tryIntoString32 (stringPushStr cs t) with
      | none => rw [ht] at h; simp at h
      | some u =>
        rw [ht] at h
        simp only [Option.map_some', Option.some.injEq] at h
        subst h
        intro t2 ht2
        simp only [List.mem_singleton] at ht2
        subst ht2
        rw [tryIntoString32_some ht]
        exact validUtf8_encode _
  | pop =>
    simp only [Op.apply, String32.pop, bind, Option.bind] at h
    cases hd : utf8Decode s.vec with
    | none => rw [hd] at h; simp at h
    | some cs =>
      rw [hd] at h
      dsimp only at h
      cases ht : tryIntoString32 (stringPop cs).1 with
      | none => rw [ht] at h; simp at h
      | some u =>
        rw [ht] at h
        dsimp only at h
        simp only [Option.pure_def, Option.map_some', Option.some.injEq] at h
        subst h
        intro t2 ht2
        simp only [List.mem_singleton] at ht2
        subst ht2
        rw [tryIntoString32_some ht]
        exact validUtf8_encode _
  | insert idx ch =>
    simp only [Op.apply, String32.insert, bind, Option.bind] at h
    cases hd : utf8Decode s.vec with
    | none => rw [hd] at h; simp at h
    | some cs =>
      rw [hd] at h
      dsimp only at h
      cases hm : stringInsert cs idx ch with
      | none => rw [hm] at h; simp at h
      | some cs2 =>
        rw [hm] at h
        dsimp only at h
        cases ht : tryIntoString32 cs2 with
        | none => rw [ht] at h; simp at h
        | some u =>
          rw [ht] at h
          simp only [Option.map_some', Option.some.injEq] at h
          subst h
          intro t2 ht2
          simp only [List.mem_singleton] at ht2
          subst ht2
          rw [tryIntoString32_some ht]
          exact validUtf8_encode _
  | insertStr idx t =>
    simp only [Op.apply, String32.insertStr, bind, Option.bind] at h
    cases hd : utf8Decode s.vec with
    | none => rw [hd] at h; simp at h
    | some cs =>
      rw [hd] at h
      dsimp only at h
      cases hm : stringInsertStr cs idx t with
      | none => rw [hm] at h; simp at h
      | some cs2 =>
        rw [hm] at h
        dsimp only at h
        cases ht : tryIntoString32 cs2 with
        | none => rw [ht] at h; simp at h
        | some u =>
          rw [ht] at h
          simp only [Option.map_some', Option.some.injEq] at h
          subst h
          intro t2 ht2
          simp only [List.mem_singleton] at ht2
          subst ht2
          rw [tryIntoString32_some ht]
          exact validUtf8_encode _
  | remove idx =>
    simp only [Op.apply, String32.remove, bind, Option.bind] at h
    cases hd : utf8Decode s.vec with
    | none => rw [hd] at h; simp at h
    | some cs =>
      rw [hd] at h
      dsimp only at h
      cases hm : stringRemove cs idx with
      | none => rw [hm] at h; simp at h
      | some p =>
        rcases p with ⟨c, cs2⟩
        rw [hm] at h
        dsimp only at h
        cases ht : tryIntoString32 cs2 with
        | none => rw [ht] at h; simp at h
        | some u =>
          rw [ht] at h
          simp only [pure, Option.map_some', Option.some.injEq] at h
          subst h
          intro t2 ht2
          simp only [List.mem_singleton] at ht2
          subst ht2
          rw [tryIntoString32_some ht]
          exact validUtf8_encode _
  | truncate newLen =>
    simp only [Op.apply, String32.truncate, bind, Option.bind] at h
    cases hd : utf8Decode s.vec with
    | none => rw [hd] at h; simp at h
    | some cs =>
      rw [hd] at h
      dsimp only at h
      cases hm : stringTruncate cs newLen with
      | none => rw [hm] at h; simp at h
      | some cs2 =>
        rw [hm] at h
        dsimp only at h
        cases ht : tryIntoString32 cs2 with
        | none => rw [ht] at h; simp at h
        | some u =>
          rw [ht] at h
          simp only [Option.map_some', Option.some.injEq] at h
          subst h
          intro t2 ht2
          simp only [List.mem_singleton] at ht2
          subst ht2
          rw [tryIntoString32_some ht]
          exact validUtf8_encode _
  | splitOff at_ =>
    simp only [Op.apply, String32.splitOff, stringSplitOff, bind, Option.bind] at h
    cases hd : utf8Decode s.vec with
    | none => rw [hd] at h; simp at h
    | some cs =>
      rw [hd] at h
      dsimp only at h
      cases hm : splitAtByteIdx cs at_ with
      | none => rw [hm] at h; simp at h
      | some p =>
        rcases p with ⟨a, b⟩
        rw [hm] at h
        dsimp only at h
        cases ht1 : tryIntoString32 a with
        | none => rw [ht1] at h; simp at h
        | some u1 =>
          rw [ht1] at h
          dsimp only at h
          cases ht2 : tryIntoString32 b with
          | none => rw [ht2] at h; simp at h
          | some u2 =>
            rw [ht2] at h
            dsimp only at h
            simp only [Option.pure_def, Option.map_some', Option.some.injEq] at h
            subst h
            intro t2 ht2m
            simp only [List.mem_cons, List.mem_singleton, List.not_mem_nil, or_false] at ht2m
            rcases ht2m with rfl | rfl
            · rw [tryIntoString32_some ht1]
              exact validUtf8_encode _
            · rw [tryIntoString32_some ht2]
              exact validUtf8_encode _
  | makeAsciiLowercase =>
    simp only [Op.apply, String32.makeAsciiLowercase, bind, Option.bind] at h
    cases hd : utf8Decode s.vec with
    | none => rw [hd] at h; simp at h
    | some cs =>
      rw [hd] at h
      dsimp only at h
      simp only [Option.pure_def, Option.map_some', Option.some.injEq] at h
      subst h
      intro t2 ht2
      simp only [List.mem_singleton] at ht2
      subst ht2
      exact validUtf8_encode _
  | makeAsciiUppercase =>
    simp only [Op.apply, String32.makeAsciiUppercase, bind, Option.bind] at h
    cases hd : utf8Decode s.vec with
    | none => rw [hd] at h; simp at h
    | some cs =>
      rw [hd] at h
      dsimp only at h
      simp only [Option.pure_def, Option.map_some', Option.some.injEq] at h
      subst h
      intro t2 ht2
      simp only [List.mem_singleton] at ht2
      subst ht2
      exact validUtf8_encode _

/-- C3 witness: pushing a character onto a concrete valid string yields only
valid strings. -/
theorem c3_witness : validUtf8 (String32.mk (utf8Encode ['a', 'b'])).vec = true ∧
    Op.apply (Op.push 'c') ⟨utf8Encode ['a', 'b']⟩ = some [⟨utf8Encode ['a', 'b', 'c']⟩] ∧
    ∀ t ∈ [(⟨utf8Encode ['a', 'b', 'c']⟩ : String32)], validUtf8 t.vec = true :=
  ⟨by decide, by decide,
    c3_mutations_preserve_utf8 (Op.push 'c') ⟨utf8Encode ['a', 'b']⟩ _ (by decide) (by decide)⟩

/-- C4: `len` is exactly the byte length of the underlying slice, narrowed to
`u32`;  it is recomputed from the byte count (also through `Deref` from the
owned type), and equals the UTF-8 byte length of the decoded content. -/
theorem c4_len_eq :
    (∀ s : Str32, s.slice.length ≤ u32Max → Str32.len s = some s.slice.length) ∧
    (∀ w : String32, w.vec.length ≤ u32Max → Str32.len w.deref = some w.vec.length) ∧
    (∀ (s : Str32) (cs : List Char), utf8Decode s.slice = some cs →
      s.slice.length ≤ u32Max → Str32.len s = some (utf8Len cs)) := by
  refine ⟨?_, ?_, ?_⟩
  · intro s h
    unfold Str32.len
    rw [if_pos h]
  · intro w h
    unfold Str32.len String32.deref
    rw [if_pos h]
  · intro s cs hd h
    have henc := utf8Decode_sound hd
    unfold Str32.len
    rw [if_pos h]
    rw [utf8Len, henc]

/-- C4 witness: the view over the four bytes of "test" reports length 4. -/
theorem c4_witness :
    Str32.len ⟨[116, 101, 115, 116]⟩ = some 4 ∧
    Str32.len (String32.mk [116, 101, 115, 116]).deref = some 4 ∧
    Str32.len ⟨[116, 101, 115, 116]⟩ = some (utf8Len ['t', 'e', 's', 't']) :=
  ⟨(c4_len_eq.1 ⟨[116, 101, 115, 116]⟩ (by decide)).trans (by decide),
   (c4_len_eq.2.1 ⟨[116, 101, 115, 116]⟩ (by decide)).trans (by decide),
   c4_len_eq.2.2 ⟨[116, 101, 115, 116]⟩ ['t', 'e', 's', 't'] (by decide) (by decide)⟩

/-- C5: at a byte offset strictly inside a multi-byte character (in range, not a
character boundary), `split_off`, `split_at`, `insert`, `remove` and `truncate`
all panic instead of completing. -/
theorem c5_nonboundary_panics (s : String32) (cs : List Char) (idx : Nat) (ch : Char)
    (hv : utf8Decode s.vec = some cs)
    (hb : isUtf8Boundary s.vec idx = false) (hr : idx < s.vec.length) :
    s.splitOff idx = none ∧ Str32.splitAt s.deref idx = none ∧
    s.insert idx ch = none ∧ s.remove idx = none ∧ s.truncate idx = none := by
  have henc : utf8Encode cs = s.vec := utf8Decode_sound hv
  have hsplit : splitAtByteIdx cs idx = none := by
    have h1 := isUtf8Boundary_encode cs idx
    rw [henc, hb] at h1
    cases hsp : splitAtByteIdx cs idx with
    | none => rfl
    | some p => rw [hsp] at h1; simp at h1
  have hlen : idx < utf8Len cs := by rw [utf8Len, henc]; exact hr
  refine ⟨?_, ?_, ?_, ?_, ?_⟩
  · unfold String32.splitOff stringSplitOff
    simp only [bind, Option.bind]
    rw [hv]
    dsimp only
    rw [hsplit]
  · unfold Str32.splitAt String32.deref
    simp only [bind, Option.bind]
    rw [hv]
    dsimp only
    rw [hsplit]
  · unfold String32.insert stringInsert
    simp only [bind, Option.bind]
    rw [hv]
    dsimp only
    rw [hsplit]
    rfl
  · unfold String32.remove stringRemove
    simp only [bind, Option.bind]
    rw [hv]
    dsimp only
    rw [hsplit]
  · unfold String32.truncate stringTruncate
    simp only [bind, Option.bind]
    rw [hv]
    dsimp only
    rw [if_neg (by omega), hsplit]
    rfl

/-- C5 witness: offset 2 inside the 4-byte encoding of the emoji aborts all five
offset-taking operations. -/
theorem c5_witness :
    (utf8Decode (String32.mk (utf8Encode ['🙂'])).vec = some ['🙂'] ∧
     isUtf8Boundary (String32.mk (utf8Encode ['🙂'])).vec 2 = false ∧
     2 < (String32.mk (utf8Encode ['🙂'])).vec.length) ∧
    (String32.splitOff ⟨utf8Encode ['🙂']⟩ 2 = none ∧
     Str32.splitAt (String32.mk (utf8Encode ['🙂'])).deref 2 = none ∧
     String32.insert ⟨utf8Encode ['🙂']⟩ 2 'x' = none ∧
     String32.remove ⟨utf8Encode ['🙂']⟩ 2 = none ∧
     String32.truncate ⟨utf8Encode ['🙂']⟩ 2 = none) :=
  ⟨⟨by decide, by decide, by decide⟩,
   c5_nonboundary_panics ⟨utf8Encode ['🙂']⟩ ['🙂'] 2 'x' (by decide) (by decide) (by decide)⟩

/-- C6 counterexample: `truncate` past the end returns normally and silently does
nothing — it does not panic, refuting the claim for the `truncate` operation. -/
theorem c6_counterexample :
    String32.truncate ⟨utf8Encode ['a', 'b']⟩ 5 = some ⟨utf8Encode ['a', 'b']⟩ := by decide

/-- C6 (amended): for an out-of-range byte offset (greater than the length),
`insert`, `insert_str`, `remove` and `split_off` panic, while `truncate` returns
normally and leaves the string unchanged (native `String::truncate` is a no-op
when `new_len` exceeds the current length). -/
theorem c6_out_of_range (s : String32) (cs : List Char) (idx : Nat) (ch : Char) (t : List Char)
    (hv : utf8Decode s.vec = some cs) (hw : s.vec.length ≤ u32Max)
    (hr : s.vec.length < idx) :
    s.insert idx ch = none ∧ s.insertStr idx t = none ∧ s.remove idx = none ∧
    s.splitOff idx = none ∧ s.truncate idx = some s := by
  have henc : utf8Encode cs = s.vec := utf8Decode_sound hv
  have hlen : utf8Len cs < idx := by rw [utf8Len, henc]; exact hr
  have hsplit : splitAtByteIdx cs idx = none := splitAtByteIdx_none_of_gt cs idx hlen
  refine ⟨?_, ?_, ?_, ?_, ?_⟩
  · unfold String32.insert stringInsert
    simp only [bind, Option.bind]
    rw [hv]
    dsimp only
    rw [hsplit]
    rfl
  · unfold String32.insertStr stringInsertStr
    simp only [bind, Option.bind]
    rw [hv]
    dsimp only
    rw [hsplit]
    rfl
  · unfold String32.remove stringRemove
    simp only [bind, Option.bind]
    rw [hv]
    dsimp only
    rw [hsplit]
  · unfold String32.splitOff stringSplitOff
    simp only [bind, Option.bind]
    rw [hv]
    dsimp only
    rw [hsplit]
  · unfold String32.truncate stringTruncate
    simp only [bind, Option.bind]
    rw [hv]
    dsimp only
    rw [if_pos (by omega)]
    dsimp only
    unfold tryIntoString32
    rw [if_pos (by rw [utf8Len, henc]; exact hw), henc]

/-- C6 witness for the amended claim, at offset 5 on the two-byte string "ab". -/
theorem c6_witness :
    (utf8Decode (String32.mk (utf8Encode ['a', 'b'])).vec = some ['a', 'b'] ∧
     (String32.mk (utf8Encode ['a', 'b'])).vec.length ≤ u32Max ∧
     (String32.mk (utf8Encode ['a', 'b'])).vec.length < 5) ∧
    (String32.insert ⟨utf8Encode ['a', 'b']⟩ 5 'x' = none ∧
     String32.insertStr ⟨utf8Encode ['a', 'b']⟩ 5 ['y'] = none ∧
     String32.remove ⟨utf8Encode ['a', 'b']⟩ 5 = none ∧
     String32.splitOff ⟨utf8Encode ['a', 'b']⟩ 5 = none ∧
     String32.truncate ⟨utf8Encode ['a', 'b']⟩ 5 = some ⟨utf8Encode ['a', 'b']⟩) :=
  ⟨⟨by decide, by decide, by decide⟩,
   c6_out_of_range ⟨utf8Encode ['a', 'b']⟩ ['a', 'b'] 5 'x' ['y']
     (by decide) (by decide) (by decide)⟩

/-- C10: `truncate` with `new_len` at least the current length returns normally
and leaves the string unchanged; whenever `truncate` returns a different string,
the offset was strictly below the length and on a character boundary. -/
theorem c10_truncate_noop (s : String32) (cs : List Char) (n : Nat)
    (hv : utf8Decode s.vec = some cs) (hw : s.vec.length ≤ u32Max)
    (h : s.vec.length ≤ n) :
    s.truncate n = some s ∧
    ∀ m s2, s.truncate m = some s2 → s2 ≠ s →
      m < s.vec.length ∧ isUtf8Boundary s.vec m = true := by
  have henc : utf8Encode cs = s.vec := utf8Decode_sound hv
  have hlen : utf8Len cs = s.vec.length := by rw [utf8Len, henc]
  constructor
  · unfold String32.truncate stringTruncate
    simp only [bind, Option.bind]
    rw [hv]
    dsimp only
    rw [if_pos (by omega)]
    dsimp only
    unfold tryIntoString32
    rw [if_pos (by omega), henc]
  · intro m s2 htr hne
    unfold String32.truncate stringTruncate at htr
    simp only [bind, Option.bind] at htr
    rw [hv] at htr
    dsimp only at htr
    by_cases hle : utf8Len cs ≤ m
    · rw [if_pos hle] at htr
      dsimp only at htr
      exact absurd (by rw [tryIntoString32_some htr, henc]) hne
    · rw [if_neg hle] at htr
      refine ⟨by omega, ?_⟩
      cases hsp : splitAtByteIdx cs m with
      | none => rw [hsp] at htr; simp at htr
      | some p =>
        have hiff := isUtf8Boundary_encode cs m
        rw [henc, hsp] at hiff
        rw [hiff]
        rfl

/-- C10 witness: truncating "abc" to 5 bytes returns it unchanged. -/
theorem c10_witness :
    (utf8Decode (String32.mk (utf8Encode ['a', 'b', 'c'])).vec = some ['a', 'b', 'c'] ∧
     (String32.mk (utf8Encode ['a', 'b', 'c'])).vec.length ≤ u32Max ∧
     (String32.mk (utf8Encode ['a', 'b', 'c'])).vec.length ≤ 5) ∧
    String32.truncate ⟨utf8Encode ['a', 'b', 'c']⟩ 5 = some ⟨utf8Encode ['a', 'b', 'c']⟩ :=
  ⟨⟨by decide, by decide, by decide⟩,
   (c10_truncate_noop ⟨utf8Encode ['a', 'b', 'c']⟩ ['a', 'b', 'c'] 5
     (by decide) (by decide) (by decide)).1⟩

/-- C7: hashing delegates to the underlying `str` everywhere: equal bytes feed
any hasher the same stream, across `String32`, `Str32` and the native string
(whose stream for the same bytes is `strHashStream`). -/
theorem c7_hash_compat :
    (∀ a b : String32, a.vec = b.vec → a.hashStream = b.hashStream) ∧
    (∀ (a : String32) (t : Str32), a.vec = t.slice → a.hashStream = t.hashStream) ∧
    (∀ t u : Str32, t.slice = u.slice → t.hashStream = u.hashStream) ∧
    (∀ a : String32, a.hashStream = strHashStream a.vec) ∧
    (∀ t : Str32, t.hashStream = strHashStream t.slice) := by
  refine ⟨?_, ?_, ?_, ?_, ?_⟩ <;> intros <;>
    simp_all [String32.hashStream, Str32.hashStream, String32.deref]

/-- C7 witness: the owned string and the view over the bytes of "hi" feed a
hasher the same stream, equal to the native stream for those bytes. -/
theorem c7_witness :
    String32.hashStream ⟨[104, 105]⟩ = Str32.hashStream ⟨[104, 105]⟩ ∧
    String32.hashStream ⟨[104, 105]⟩ = strHashStream [104, 105] :=
  ⟨c7_hash_compat.2.1 ⟨[104, 105]⟩ ⟨[104, 105]⟩ (by decide),
   c7_hash_compat.2.2.2.1 ⟨[104, 105]⟩⟩

theorem charIndicesFrom_offset : ∀ (cs : List Char) (ofs : Nat) (p : Nat × Char),
    p ∈ charIndicesFrom ofs cs → ofs ≤ p.1 ∧ p.1 < ofs + utf8Len cs := by
  intro cs
  induction cs with
  | nil => intro ofs p h; simp [charIndicesFrom] at h
  | cons c cs ih =>
    intro ofs p h
    rw [utf8Len_cons]
    simp only [charIndicesFrom, List.mem_cons] at h
    have hc := charSize_pos c
    rcases h with rfl | h
    · constructor
      · exact Nat.le_refl _
      · omega
    · have := ih (ofs + charSize c) p h
      omega

theorem mapM_guard_id : ∀ (l : List (Nat × Char)), (∀ p ∈ l, p.1 ≤ u32Max) →
    l.mapM (fun p => if p.1 ≤ u32Max then some p else none) = some l := by
  intro l
  induction l with
  | nil => intro _; rfl
  | cons x l ih =>
    intro h
    rw [List.mapM_cons, if_pos (h x (List.mem_cons_self x l)),
      ih (fun p hp => h p (List.mem_cons_of_mem x hp))]
    rfl

/-- C8: `char_indices` yields the native cursor positions narrowed to 32 bits;
the narrowing always succeeds under the width invariant, giving exactly the
native `(offset, character)` sequence. -/
theorem c8_charIndices (cs : List Char) (h : utf8Len cs ≤ u32Max) :
    Str32.charIndices ⟨utf8Encode cs⟩ = some (charIndicesFrom 0 cs) := by
  unfold Str32.charIndices
  simp only [bind, Option.bind]
  rw [utf8Decode_encode]
  dsimp only
  apply mapM_guard_id
  intro p hp
  have := charIndicesFrom_offset cs 0 p hp
  omega

/-- C8 witness: the view over "te🙂st" yields exactly
(0,'t'),(1,'e'),(2,'🙂'),(6,'s'),(7,'t'). -/
theorem c8_witness : utf8Len ['t', 'e', '🙂', 's', 't'] ≤ u32Max ∧
    Str32.charIndices ⟨utf8Encode ['t', 'e', '🙂', 's', 't']⟩
      = some [(0, 't'), (1, 'e'), (2, '🙂'), (6, 's'), (7, 't')] :=
  ⟨by decide,
   (c8_charIndices ['t', 'e', '🙂', 's', 't'] (by decide)).trans (by decide)⟩

end String32Spec
